import Mathlib

/-!
Shallow embedding of the Blackjack game engine (`blackjack.py`):
the card/deck model, the hand evaluator `get_hand_sum`, the engine
`usable_ace` property, the state model with `all_states`, and the engine
operations `reset` and `play_action`, together with proofs of the
claims of the specification about them.
-/

/-- The thirteen card faces: Ace, the number cards 2..10, Jack, Queen, King. -/
inductive Face where
  | A | n2 | n3 | n4 | n5 | n6 | n7 | n8 | n9 | n10 | J | Q | K
deriving DecidableEq, Repr

/-- Source `Card`: a face together with its integer value (`@dataclass Card`). -/
structure Card where
  face : Face
  value : Nat
deriving DecidableEq, Repr

namespace Deck

/-- Source `Deck.cards`: the fixed 13-card table — Ace valued 1, number cards at
face value, J/Q/K valued 10. -/
def cards : List Card :=
  [⟨Face.A, 1⟩, ⟨Face.n2, 2⟩, ⟨Face.n3, 3⟩, ⟨Face.n4, 4⟩, ⟨Face.n5, 5⟩,
   ⟨Face.n6, 6⟩, ⟨Face.n7, 7⟩, ⟨Face.n8, 8⟩, ⟨Face.n9, 9⟩, ⟨Face.n10, 10⟩,
   ⟨Face.J, 10⟩, ⟨Face.Q, 10⟩, ⟨Face.K, 10⟩]

end Deck

/-- A draw stream: the successive random choices of the infinite deck, each an
index into `Deck.cards` (`rand.choice(self.cards)` modelled as an arbitrary
choice sequence). -/
def DrawStream : Type := Nat → Fin 13

/-- Source `draw_card` at position `i` of the stream: the chosen entry of the
fixed card table. -/
def drawCard (deck : DrawStream) (i : Nat) : Card :=
  Deck.cards.get ⟨(deck i).val, by simp [Deck.cards]⟩

/-- The ace-promotion loop of `get_hand_sum`:
`for _ in range(num_aces): if hand_sum <= 11: hand_sum += 10`. -/
def aceLoop : Nat → Nat → Nat
  | 0, s => s
  | n + 1, s => aceLoop n (if s ≤ 11 then s + 10 else s)

/-- Source `Blackjack.get_hand_sum`: sum the non-Ace values, add the Aces as 1
each, then run the promotion loop once per Ace. -/
def get_hand_sum (cards : List Card) : Nat :=
  let non_ace_sum := ((cards.filter fun c => c.face ≠ Face.A).map Card.value).sum
  let num_aces := cards.countP fun c => c.face = Face.A
  aceLoop num_aces (non_ace_sum + num_aces)

/-- Number of Aces in a hand (the count of cards whose face equals the Ace in `cards`). -/
def numAces (cards : List Card) : Nat :=
  cards.countP fun c => c.face = Face.A

/-- The hard remainder of a hand: the sum of its non-Ace card values. -/
def nonAceSum (cards : List Card) : Nat :=
  ((cards.filter fun c => c.face ≠ Face.A).map Card.value).sum

/-- The hard base of a hand: non-Ace values plus one per Ace — the value of
`hand_sum` before the promotion loop runs. -/
def hardBase (cards : List Card) : Nat :=
  nonAceSum cards + numAces cards

/-- Source `Blackjack.usable_ace` (the engine property, as a function of the hand):
false when no Ace is held, false when the raw value sum is ≥ 12, else true. -/
def usable_ace (cards : List Card) : Bool :=
  if ¬ (cards.any fun c => c.face = Face.A) then false
  else if 12 ≤ (cards.map Card.value).sum then false
  else true

/-- Source `BlackjackAction`: the two-member action enumeration. -/
inductive BlackjackAction where
  | HIT | STICK
deriving DecidableEq, Repr

/-- Source `BlackjackState`: the immutable observable state (`@dataclass(frozen=True)`). -/
structure BlackjackState where
  player_sum : Nat
  usable_ace : Bool
  dealer_showing : Nat
  terminal : Bool
deriving DecidableEq, Repr

/-- Source `BlackjackState.all_states`: the image of the product
`range(2,31) × [False,True] × range(1,11) × [False,True]` under the state
constructor, as a finite set. -/
def BlackjackState.all_states : Finset BlackjackState :=
  ((Finset.Icc 2 30) ×ˢ (Finset.univ : Finset Bool) ×ˢ
      (Finset.Icc 1 10) ×ˢ (Finset.univ : Finset Bool)).image
    fun t => BlackjackState.mk t.1 t.2.1 t.2.2.1 t.2.2.2

/-- Whose turn it is (the engine `turn` marker, player or dealer). -/
inductive Turn where
  | player | dealer
deriving DecidableEq, Repr

/-- The single error kind: `play_action` called while the game is over
(the `assert self.in_play` failure). -/
inductive InvalidOperation where
  | gameOver
deriving DecidableEq, Repr

/-- The `Blackjack` engine instance: the draw stream with the position of
the next draw, the turn marker, both hands, and the in-play flag. -/
structure Blackjack where
  deck : DrawStream
  idx : Nat
  turn : Turn
  player_cards : List Card
  dealer_cards : List Card
  in_play : Bool

/-- Source `Blackjack.state`: the observable state — evaluated player hand,
usable-ace flag, the value of the second dealer card
(`self.dealer_cards[1]`), and `terminal = not self.in_play`. -/
def Blackjack.state (b : Blackjack) : BlackjackState :=
  { player_sum := get_hand_sum b.player_cards
    usable_ace := usable_ace b.player_cards
    dealer_showing := (b.dealer_cards.getD 1 ⟨Face.A, 1⟩).value
    terminal := !b.in_play }

/-- Source `Blackjack.deal_hands`: two cards to the player, then two to the
dealer, in stream order. -/
def Blackjack.deal_hands (b : Blackjack) : Blackjack :=
  { b with
    player_cards := [drawCard b.deck b.idx, drawCard b.deck (b.idx + 1)]
    dealer_cards := [drawCard b.deck (b.idx + 2), drawCard b.deck (b.idx + 3)]
    idx := b.idx + 4 }

/-- Source `Blackjack.reset`: deal fresh hands, set `in_play`; on a natural
(player total 21) immediately end the hand with reward 1, else reward 0. -/
def Blackjack.reset (b : Blackjack) : Blackjack × BlackjackState × Int :=
  let b1 : Blackjack := { b.deal_hands with turn := Turn.player, in_play := true }
  if get_hand_sum b1.player_cards = 21 then
    let b2 : Blackjack := { b1 with in_play := false }
    (b2, b2.state, 1)
  else (b1, b1.state, 0)

/-- The engine right after construction: `__init__` calls `reset`. -/
def Blackjack.initial (deck : DrawStream) : Blackjack :=
  ((Blackjack.mk deck 0 Turn.player [] [] true).reset).1

/-- The dealer draw loop on STICK:
`while self.dealer_sum < 17: self.dealer_cards.append(self.deck.draw_card())`.
Returns the final dealer hand and the next stream position.  The loop
terminates because each draw raises the hard base by at least 1 while the
loop only runs with evaluated total (hence hard base) below 17. -/
def dealerDraw (deck : DrawStream) (i : Nat) (cards : List Card) :
    List Card × Nat :=
  if get_hand_sum cards < 17 then
    dealerDraw deck (i + 1) (cards ++ [drawCard deck i])
  else (cards, i)
termination_by 17 - hardBase cards
decreasing_by
  have hmono : ∀ m t, t ≤ aceLoop m t := by
    intro m
    induction m with
    | zero => intro t; exact Nat.le_refl t
    | succ k ih =>
      intro t
      by_cases ht : t ≤ 11
      · simpa [aceLoop, ht] using Nat.le_trans (Nat.le_add_right t 10) (ih (t + 10))
      · simpa [aceLoop, ht] using ih t
  have h1 : hardBase cards ≤ get_hand_sum cards := hmono (numAces cards) (hardBase cards)
  by_cases hf : (drawCard deck i).face = Face.A
  · have h2 : hardBase (cards ++ [drawCard deck i]) = hardBase cards + 1 := by
      simp [hardBase, nonAceSum, numAces, List.filter_append, List.countP_append, hf]
      omega
    omega
  · have hv : ∀ j : Fin 13, (Deck.cards.get ⟨j.val, by simp [Deck.cards]⟩).face ≠ Face.A →
        1 ≤ (Deck.cards.get ⟨j.val, by simp [Deck.cards]⟩).value := by decide
    have hv2 : 1 ≤ (drawCard deck i).value := hv (deck i) hf
    have h2 : hardBase (cards ++ [drawCard deck i])
        = hardBase cards + (drawCard deck i).value := by
      simp [hardBase, nonAceSum, numAces, List.filter_append, List.countP_append, hf]
      omega
    omega

/-- Source `Blackjack.play_action`: requires `in_play`; STICK runs the dealer
loop, ends the hand and settles; HIT draws one player card, ending the
hand with reward −1 only on a bust. -/
def Blackjack.play_action (b : Blackjack) (a : BlackjackAction) :
    Except InvalidOperation (Blackjack × BlackjackState × Int) :=
  if b.in_play = true then
    match a with
    | BlackjackAction.STICK =>
      let drawn := dealerDraw b.deck b.idx b.dealer_cards
      let b2 : Blackjack :=
        { b with turn := Turn.dealer, dealer_cards := drawn.1, idx := drawn.2,
                 in_play := false }
      let dealer_sum := get_hand_sum b2.dealer_cards
      let player_sum := get_hand_sum b2.player_cards
      if 21 < dealer_sum then Except.ok (b2, b2.state, 1)
      else if player_sum < dealer_sum then Except.ok (b2, b2.state, -1)
      else if dealer_sum < player_sum then Except.ok (b2, b2.state, 1)
      else Except.ok (b2, b2.state, 0)
    | BlackjackAction.HIT =>
      let b1 : Blackjack :=
        { b with player_cards := b.player_cards ++ [drawCard b.deck b.idx],
                 idx := b.idx + 1 }
      if 21 < get_hand_sum b1.player_cards then
        let b2 : Blackjack := { b1 with in_play := false }
        Except.ok (b2, b2.state, -1)
      else Except.ok (b1, b1.state, 0)
  else Except.error InvalidOperation.gameOver

/-- Engine configurations reachable from a freshly constructed engine by
`reset` and successful `play_action` calls. -/
inductive Reachable : Blackjack → Prop where
  | init (deck : DrawStream) : Reachable (Blackjack.initial deck)
  | reset_step (b : Blackjack) : Reachable b → Reachable (b.reset).1
  | play_step (b : Blackjack) (a : BlackjackAction)
      (out : Blackjack × BlackjackState × Int) :
      Reachable b → b.play_action a = Except.ok out → Reachable out.1

/-- The engine invariant maintained by `reset` and `play_action`: both
hands hold at least two table cards, the player total never exceeds 31,
and while the hand is live the player total is at most 21 and the dealer
still holds exactly the two dealt cards. -/
def EngineInv (b : Blackjack) : Prop :=
  2 ≤ b.player_cards.length ∧
  2 ≤ b.dealer_cards.length ∧
  (∀ c ∈ b.player_cards, c ∈ Deck.cards) ∧
  (∀ c ∈ b.dealer_cards, c ∈ Deck.cards) ∧
  (b.in_play = true → get_hand_sum b.player_cards ≤ 21 ∧ b.dealer_cards.length = 2) ∧
  get_hand_sum b.player_cards ≤ 31

/-- Draw stream whose first two cards are Ace then King (Scenario A). -/
def deckNatural : DrawStream := fun i =>
  if i = 0 then 0 else if i = 1 then 12 else 3

/-- Draw stream dealing the player 10 and 9, the dealer 2 and 2, then a 2
(HIT to exactly 21) and a King (HIT to 31). -/
def deckTo31 : DrawStream := fun i =>
  if i = 0 then 9 else if i = 1 then 8 else if i = 4 then 1
  else if i = 5 then 12 else 1

/-- Draw stream dealing the player 10 and 10, the dealer 6 and 5, then a 7
(the dealer draws to 18 on STICK — Scenario D). -/
def deckStick : DrawStream := fun i =>
  if i = 0 then 9 else if i = 1 then 9 else if i = 2 then 5
  else if i = 3 then 4 else if i = 4 then 6 else 0

/-- The engine reached on `deckTo31` after one HIT: the player holds
10, 9, 2 — total exactly 21, hand still live. -/
def b31a : Blackjack :=
  { deck := deckTo31, idx := 5, turn := Turn.player,
    player_cards := [⟨Face.n10, 10⟩, ⟨Face.n9, 9⟩, ⟨Face.n2, 2⟩],
    dealer_cards := [⟨Face.n2, 2⟩, ⟨Face.n2, 2⟩], in_play := true }

/-- The engine reached on `deckTo31` after a second HIT: the player holds
10, 9, 2, K — total 31, a bust. -/
def b31b : Blackjack :=
  { deck := deckTo31, idx := 6, turn := Turn.player,
    player_cards := [⟨Face.n10, 10⟩, ⟨Face.n9, 9⟩, ⟨Face.n2, 2⟩, ⟨Face.K, 10⟩],
    dealer_cards := [⟨Face.n2, 2⟩, ⟨Face.n2, 2⟩], in_play := false }

/-- Once the running total is at least 12, the promotion loop is inert. -/
lemma aceLoop_of_twelve_le (n s : Nat) (h : 12 ≤ s) : aceLoop n s = s := by
  induction n with
  | zero => rfl
  | succ n ih =>
    have hs : ¬ s ≤ 11 := by omega
    simp [aceLoop, hs, ih]

/-- Closed form of the promotion loop when the start value is at least the
iteration count (as in `get_hand_sum`, where each Ace contributes 1 to the
start value): at most one promotion ever fires. -/
lemma aceLoop_eq (n s : Nat) (hn : n ≤ s) :
    aceLoop n s = if 1 ≤ n ∧ s ≤ 11 then s + 10 else s := by
  cases n with
  | zero => simp [aceLoop]
  | succ n =>
    by_cases hs : s ≤ 11
    · simp only [aceLoop, if_pos hs]
      cases n with
      | zero =>
        rw [if_pos ⟨le_refl 1, hs⟩]
        rfl
      | succ m =>
        rw [aceLoop_of_twelve_le (m + 1) (s + 10) (by omega)]
        rw [if_pos ⟨by omega, hs⟩]
    · simp only [aceLoop, if_neg hs]
      rw [aceLoop_of_twelve_le n s (by omega)]
      rw [if_neg]
      rintro ⟨-, h11⟩
      exact hs h11

/-- Closed form of `get_hand_sum`: the hard base, plus 10 exactly when the
hand holds an Ace and the hard base is at most 11. -/
lemma get_hand_sum_eq (cards : List Card) :
    get_hand_sum cards =
      if 1 ≤ numAces cards ∧ hardBase cards ≤ 11
      then hardBase cards + 10 else hardBase cards := by
  unfold get_hand_sum hardBase nonAceSum numAces
  rw [aceLoop_eq _ _ (Nat.le_add_left _ _)]

lemma hardBase_le_get_hand_sum (cards : List Card) :
    hardBase cards ≤ get_hand_sum cards := by
  rw [get_hand_sum_eq]; split <;> omega

lemma get_hand_sum_le_hardBase_add_ten (cards : List Card) :
    get_hand_sum cards ≤ hardBase cards + 10 := by
  rw [get_hand_sum_eq]; split <;> omega

/-- When the evaluated total exceeds 21, no promotion fired: the total is
the hard base itself. -/
lemma get_hand_sum_of_gt21 (cards : List Card)
    (h : 21 < get_hand_sum cards) : get_hand_sum cards = hardBase cards := by
  rw [get_hand_sum_eq] at h ⊢
  split
  · rename_i hcond
    rw [if_pos hcond] at h
    omega
  · rfl

/-- The hard base grows by the contribution of the drawn card: 1 for an Ace,
its value otherwise. -/
lemma hardBase_append (cards : List Card) (c : Card) :
    hardBase (cards ++ [c]) =
      hardBase cards + (if c.face = Face.A then 1 else c.value) := by
  unfold hardBase nonAceSum numAces
  rw [List.filter_append, List.map_append, List.sum_append, List.countP_append]
  by_cases hc : c.face = Face.A
  · simp [hc]
    omega
  · simp [hc]
    omega

lemma numAces_append (cards : List Card) (c : Card) :
    numAces (cards ++ [c]) =
      numAces cards + (if c.face = Face.A then 1 else 0) := by
  unfold numAces
  rw [List.countP_append]
  by_cases hc : c.face = Face.A <;> simp [hc]

/-- Every entry of the card table has value in [1,10], value 1 when its
face is the Ace, and value at least 2 otherwise. -/
lemma deck_card_facts :
    ∀ c ∈ Deck.cards, 1 ≤ c.value ∧ c.value ≤ 10 ∧
      (c.face = Face.A → c.value = 1) ∧ (c.face ≠ Face.A → 2 ≤ c.value) := by
  decide

lemma drawCard_mem (deck : DrawStream) (i : Nat) :
    drawCard deck i ∈ Deck.cards := by
  unfold drawCard
  exact List.get_mem _ _ _

lemma one_le_contrib (c : Card) (hc : c ∈ Deck.cards) :
    1 ≤ if c.face = Face.A then 1 else c.value := by
  have h := deck_card_facts c hc
  by_cases hf : c.face = Face.A
  · simp [hf]
  · simpa [hf] using h.1

lemma contrib_le_ten (c : Card) (hc : c ∈ Deck.cards) :
    (if c.face = Face.A then 1 else c.value) ≤ 10 := by
  have h := deck_card_facts c hc
  by_cases hf : c.face = Face.A
  · simp [hf]
  · simpa [hf] using h.2.1

/-- For a hand of table cards, the raw value sum equals the hard base
(each Ace has value 1). -/
lemma valueSum_eq_hardBase (cards : List Card)
    (h : ∀ c ∈ cards, c ∈ Deck.cards) :
    (cards.map Card.value).sum = hardBase cards := by
  induction cards with
  | nil => simp [hardBase, nonAceSum, numAces]
  | cons c cs ih =>
    have hc := deck_card_facts c (h c (List.mem_cons_self c cs))
    have ihc : (cs.map Card.value).sum = hardBase cs :=
      ih fun x hx => h x (List.mem_cons_of_mem c hx)
    unfold hardBase nonAceSum numAces at ihc ⊢
    by_cases hface : c.face = Face.A
    · have hv : c.value = 1 := hc.2.2.1 hface
      simp [hface, hv] at ihc ⊢
      omega
    · simp [hface] at ihc ⊢
      omega

/-- For a hand of table cards, the hard base is at least the number of
cards held. -/
lemma length_le_hardBase (cards : List Card)
    (h : ∀ c ∈ cards, c ∈ Deck.cards) :
    cards.length ≤ hardBase cards := by
  induction cards with
  | nil => simp
  | cons c cs ih =>
    have hc := deck_card_facts c (h c (List.mem_cons_self c cs))
    have ihc : cs.length ≤ hardBase cs :=
      ih fun x hx => h x (List.mem_cons_of_mem c hx)
    unfold hardBase nonAceSum numAces at ihc ⊢
    by_cases hface : c.face = Face.A
    · simp [hface] at ihc ⊢
      omega
    · have : 2 ≤ c.value := hc.2.2.2 hface
      simp [hface] at ihc ⊢
      omega

/-- The hand holds an Ace iff `numAces` is positive. -/
lemma any_ace_iff (cards : List Card) :
    (cards.any fun c => c.face = Face.A) = true ↔ 1 ≤ numAces cards := by
  unfold numAces
  rw [List.any_eq_true]
  constructor
  · rintro ⟨c, hc, hface⟩
    have : 0 < cards.countP fun c => c.face = Face.A :=
      List.countP_pos_iff.mpr ⟨c, hc, hface⟩
    omega
  · intro h
    have : 0 < cards.countP fun c => c.face = Face.A := by omega
    obtain ⟨c, hc, hface⟩ := List.countP_pos_iff.mp this
    exact ⟨c, hc, hface⟩

/-- Characterisation of the engine predicate `usable_ace` on a hand of table
cards: an Ace is held and the hard base is at most 11. -/
lemma usable_ace_iff (cards : List Card)
    (hmem : ∀ c ∈ cards, c ∈ Deck.cards) :
    usable_ace cards = true ↔ 1 ≤ numAces cards ∧ hardBase cards ≤ 11 := by
  unfold usable_ace
  rw [valueSum_eq_hardBase cards hmem]
  by_cases hany : (cards.any fun c => c.face = Face.A) = true
  · rw [if_neg (not_not_intro hany)]
    by_cases h12 : 12 ≤ hardBase cards
    · rw [if_pos h12]
      simp only [Bool.false_eq_true, false_iff]
      rintro ⟨-, hle⟩
      omega
    · rw [if_neg h12]
      simp only [true_iff]
      exact ⟨(any_ace_iff cards).mp hany, by omega⟩
  · rw [if_pos hany]
    simp only [Bool.false_eq_true, false_iff]
    rintro ⟨hace, -⟩
    exact hany ((any_ace_iff cards).mpr hace)

/-- Unfolding equation of the dealer draw loop. -/
lemma dealerDraw_eq (deck : DrawStream) (i : Nat) (cards : List Card) :
    dealerDraw deck i cards =
      if get_hand_sum cards < 17 then
        dealerDraw deck (i + 1) (cards ++ [drawCard deck i])
      else (cards, i) := by
  rw [dealerDraw]

/-- What the dealer draw loop does: it appends the next cards of the
stream one at a time, drawing exactly while the evaluated total is below
17, and stops at the first total of 17 or more. -/
lemma dealerDraw_spec (deck : DrawStream) :
    ∀ (i : Nat) (cards : List Card),
      ∃ drawn : List Card,
        (dealerDraw deck i cards).1 = cards ++ drawn ∧
        (dealerDraw deck i cards).2 = i + drawn.length ∧
        (∀ k (hk : k < drawn.length), drawn.get ⟨k, hk⟩ = drawCard deck (i + k)) ∧
        (∀ k, k < drawn.length → get_hand_sum (cards ++ drawn.take k) < 17) ∧
        17 ≤ get_hand_sum (cards ++ drawn) := by
  refine dealerDraw.induct deck _ ?_ ?_
  · intro i cards h ih
    obtain ⟨d, h1, h2, h3, h4, h5⟩ := ih
    refine ⟨drawCard deck i :: d, ?_, ?_, ?_, ?_, ?_⟩
    · rw [dealerDraw_eq, if_pos h, h1, List.append_assoc, List.singleton_append]
    · rw [dealerDraw_eq, if_pos h, h2, List.length_cons]
      omega
    · intro k hk
      match k with
      | 0 => simp
      | k + 1 =>
        have hk2 : k < d.length := by simpa using hk
        have hg := h3 k hk2
        have hi : i + 1 + k = i + (k + 1) := by omega
        rw [hi] at hg
        simpa using hg
    · intro k hk
      match k with
      | 0 => simpa using h
      | k + 1 =>
        have hk2 : k < d.length := by simpa using hk
        have hg := h4 k hk2
        rw [List.append_assoc, List.singleton_append] at hg
        simpa [List.take_succ_cons] using hg
    · rw [List.append_assoc, List.singleton_append] at h5
      exact h5
  · intro i cards h
    refine ⟨[], ?_, ?_, ?_, ?_, ?_⟩
    · rw [dealerDraw_eq, if_neg h]
      simp
    · rw [dealerDraw_eq, if_neg h]
      simp
    · intro k hk
      simp at hk
    · intro k hk
      simp at hk
    · simpa using by omega
  
/-- All cards in the result hand of the dealer loop come from the card table
when the starting hand does. -/
lemma dealerDraw_mem (deck : DrawStream) :
    ∀ (i : Nat) (cards : List Card), (∀ c ∈ cards, c ∈ Deck.cards) →
      ∀ c ∈ (dealerDraw deck i cards).1, c ∈ Deck.cards := by
  refine dealerDraw.induct deck _ ?_ ?_
  · intro i cards h ih hmem
    rw [dealerDraw_eq, if_pos h]
    refine ih ?_
    intro c hc
    rcases List.mem_append.mp hc with h1 | h1
    · exact hmem c h1
    · obtain rfl := List.mem_singleton.mp h1
      exact drawCard_mem deck i
  · intro i cards h hmem
    rw [dealerDraw_eq, if_neg h]
    exact hmem

/-- Appending a table card to a hand whose total is at most 16 keeps the
total at most 26. -/
lemma get_hand_sum_append_le (cards : List Card) (c : Card) (hc : c ∈ Deck.cards)
    (h : get_hand_sum cards ≤ 16) : get_hand_sum (cards ++ [c]) ≤ 26 := by
  have hbase := hardBase_le_get_hand_sum cards
  have happ := hardBase_append cards c
  have hten := contrib_le_ten c hc
  rw [get_hand_sum_eq]
  split
  · rename_i hcond
    omega
  · omega

/-- The dealer loop never finishes above 26: every draw is taken at a
total of at most 16 and adds at most 10. -/
lemma dealerDraw_le_26 (deck : DrawStream) :
    ∀ (i : Nat) (cards : List Card), get_hand_sum cards ≤ 26 →
      get_hand_sum (dealerDraw deck i cards).1 ≤ 26 := by
  refine dealerDraw.induct deck _ ?_ ?_
  · intro i cards h ih h26
    rw [dealerDraw_eq, if_pos h]
    exact ih (get_hand_sum_append_le cards _ (drawCard_mem deck i) (by omega))
  · intro i cards h h26
    rw [dealerDraw_eq, if_neg h]
    exact h26

/-- The hard base of a hand of table cards is at most ten per card. -/
lemma hardBase_le_ten_mul (cards : List Card)
    (h : ∀ c ∈ cards, c ∈ Deck.cards) :
    hardBase cards ≤ 10 * cards.length := by
  induction cards with
  | nil => simp [hardBase, nonAceSum, numAces]
  | cons c cs ih =>
    have hc := deck_card_facts c (h c (List.mem_cons_self c cs))
    have ihc : hardBase cs ≤ 10 * cs.length :=
      ih fun x hx => h x (List.mem_cons_of_mem c hx)
    unfold hardBase nonAceSum numAces at ihc ⊢
    by_cases hface : c.face = Face.A
    · simp [hface] at ihc ⊢
      omega
    · have : c.value ≤ 10 := hc.2.1
      simp [hface] at ihc ⊢
      omega

/-- A two-card hand of table cards evaluates to at most 21. -/
lemma get_hand_sum_two_cards_le (cards : List Card)
    (hlen : cards.length = 2) (h : ∀ c ∈ cards, c ∈ Deck.cards) :
    get_hand_sum cards ≤ 21 := by
  have h20 : hardBase cards ≤ 20 := by
    have := hardBase_le_ten_mul cards h
    omega
  rw [get_hand_sum_eq]
  split
  · rename_i hcond
    omega
  · omega

/-- What `reset` does: fresh four-card deal, and the natural check. -/
lemma reset_spec (b : Blackjack) :
    (b.reset).1.player_cards = [drawCard b.deck b.idx, drawCard b.deck (b.idx + 1)] ∧
    (b.reset).1.dealer_cards = [drawCard b.deck (b.idx + 2), drawCard b.deck (b.idx + 3)] ∧
    (b.reset).1.idx = b.idx + 4 ∧
    (b.reset).1.deck = b.deck ∧
    (b.reset).2.1 = (b.reset).1.state ∧
    (if get_hand_sum (b.reset).1.player_cards = 21
      then (b.reset).1.in_play = false ∧ (b.reset).2.2 = 1
      else (b.reset).1.in_play = true ∧ (b.reset).2.2 = 0) := by
  unfold Blackjack.reset Blackjack.deal_hands
  by_cases h : get_hand_sum [drawCard b.deck b.idx, drawCard b.deck (b.idx + 1)] = 21 <;>
    simp [h]

/-- Unfolding of `play_action` on a live engine, HIT branch, written out. -/
lemma play_action_hit_eq (b : Blackjack) (hin : b.in_play = true) :
    b.play_action BlackjackAction.HIT =
      (let b1 : Blackjack :=
        { b with player_cards := b.player_cards ++ [drawCard b.deck b.idx],
                 idx := b.idx + 1 }
       if 21 < get_hand_sum b1.player_cards then
         let b2 : Blackjack := { b1 with in_play := false }
         Except.ok (b2, b2.state, -1)
       else Except.ok (b1, b1.state, 0)) := by
  unfold Blackjack.play_action
  rw [if_pos hin]

/-- Unfolding of `play_action` on a live engine, STICK branch, written out. -/
lemma play_action_stick_eq (b : Blackjack) (hin : b.in_play = true) :
    b.play_action BlackjackAction.STICK =
      (let drawn := dealerDraw b.deck b.idx b.dealer_cards
       let b2 : Blackjack := { b with turn := Turn.dealer, dealer_cards := drawn.1,
                                      idx := drawn.2, in_play := false }
       let dealer_sum := get_hand_sum b2.dealer_cards
       let player_sum := get_hand_sum b2.player_cards
       if 21 < dealer_sum then Except.ok (b2, b2.state, 1)
       else if player_sum < dealer_sum then Except.ok (b2, b2.state, -1)
       else if dealer_sum < player_sum then Except.ok (b2, b2.state, 1)
       else Except.ok (b2, b2.state, 0)) := by
  unfold Blackjack.play_action
  rw [if_pos hin]

/-- A dead engine rejects every action. -/
lemma play_action_error (b : Blackjack) (a : BlackjackAction)
    (hin : b.in_play = false) :
    b.play_action a = Except.error InvalidOperation.gameOver := by
  unfold Blackjack.play_action
  rw [hin]
  rfl

/-- Running `reset` establishes the engine invariant, whatever engine it runs on. -/
lemma EngineInv_reset (b : Blackjack) : EngineInv (b.reset).1 := by
  obtain ⟨hp, hd, -, -, -, hnat⟩ := reset_spec b
  have hpm : ∀ c ∈ (b.reset).1.player_cards, c ∈ Deck.cards := by
    rw [hp]
    intro c hc
    simp only [List.mem_cons, List.not_mem_nil, or_false] at hc
    rcases hc with rfl | rfl
    · exact drawCard_mem b.deck b.idx
    · exact drawCard_mem b.deck (b.idx + 1)
  have hdm : ∀ c ∈ (b.reset).1.dealer_cards, c ∈ Deck.cards := by
    rw [hd]
    intro c hc
    simp only [List.mem_cons, List.not_mem_nil, or_false] at hc
    rcases hc with rfl | rfl
    · exact drawCard_mem b.deck (b.idx + 2)
    · exact drawCard_mem b.deck (b.idx + 3)
  have hp21 : get_hand_sum (b.reset).1.player_cards ≤ 21 :=
    get_hand_sum_two_cards_le _ (by rw [hp]; rfl) hpm
  refine ⟨by rw [hp]; simp, by rw [hd]; simp, hpm, hdm,
    fun _ => ⟨hp21, by rw [hd]; rfl⟩, by omega⟩

/-- Running `play_action` preserves the engine invariant. -/
lemma EngineInv_play (b : Blackjack) (a : BlackjackAction)
    (out : Blackjack × BlackjackState × Int)
    (hInv : EngineInv b) (h : b.play_action a = Except.ok out) : EngineInv out.1 := by
  obtain ⟨hpl, hdl, hpm, hdm, hlive, h31⟩ := hInv
  have hin : b.in_play = true := by
    by_contra hin
    rw [play_action_error b a (by simpa using hin)] at h
    exact Except.noConfusion h
  obtain ⟨hp21, hd2⟩ := hlive hin
  cases a with
  | HIT =>
    rw [play_action_hit_eq b hin] at h
    simp only [] at h
    have hpm2 : ∀ c ∈ b.player_cards ++ [drawCard b.deck b.idx], c ∈ Deck.cards := by
      intro c hc
      rcases List.mem_append.mp hc with hc | hc
      · exact hpm c hc
      · obtain rfl := List.mem_singleton.mp hc
        exact drawCard_mem b.deck b.idx
    have hbase : hardBase (b.player_cards ++ [drawCard b.deck b.idx]) ≤ 31 := by
      have h1 := hardBase_append b.player_cards (drawCard b.deck b.idx)
      have h2 := contrib_le_ten (drawCard b.deck b.idx) (drawCard_mem b.deck b.idx)
      have h3 := hardBase_le_get_hand_sum b.player_cards
      omega
    by_cases hbust : 21 < get_hand_sum (b.player_cards ++ [drawCard b.deck b.idx])
    · rw [if_pos hbust] at h
      obtain rfl := Except.ok.inj h
      have hno := get_hand_sum_of_gt21 _ hbust
      exact ⟨by simp; omega, hdl, hpm2, hdm, by simp, by simp; omega⟩
    · rw [if_neg hbust] at h
      obtain rfl := Except.ok.inj h
      exact ⟨by simp; omega, hdl, hpm2, hdm, fun _ => ⟨by simp; omega, hd2⟩, by simp; omega⟩
  | STICK =>
    rw [play_action_stick_eq b hin] at h
    simp only [] at h
    obtain ⟨drawn, hres, -, -, -, -⟩ := dealerDraw_spec b.deck b.idx b.dealer_cards
    have hdm2 : ∀ c ∈ (dealerDraw b.deck b.idx b.dealer_cards).1, c ∈ Deck.cards :=
      dealerDraw_mem b.deck b.idx b.dealer_cards hdm
    have hdl2 : 2 ≤ (dealerDraw b.deck b.idx b.dealer_cards).1.length := by
      rw [hres, List.length_append]
      omega
    split_ifs at h <;>
      { obtain rfl := Except.ok.inj h
        exact ⟨hpl, hdl2, hpm, hdm2, by simp, h31⟩ }

/-- Every reachable engine satisfies the invariant. -/
lemma reachable_inv (b : Blackjack) (h : Reachable b) : EngineInv b := by
  induction h with
  | init deck => exact EngineInv_reset (Blackjack.mk deck 0 Turn.player [] [] true)
  | reset_step b hb ih => exact EngineInv_reset b
  | play_step b a out hb heq ih => exact EngineInv_play b a out ih heq

/-- A live engine accepts every action. -/
lemma play_action_ok (b : Blackjack) (a : BlackjackAction) (hin : b.in_play = true) :
    ∃ out, b.play_action a = Except.ok out := by
  cases a with
  | HIT =>
    rw [play_action_hit_eq b hin]
    simp only []
    split_ifs <;> exact ⟨_, rfl⟩
  | STICK =>
    rw [play_action_stick_eq b hin]
    simp only []
    split_ifs <;> exact ⟨_, rfl⟩

/-- Claim C2: for a hand of table cards — no Aces: the total is the raw
value sum and usable_ace is false; exactly one Ace with hard remainder at
most 10: the total is remainder + 11 and usable_ace is true; exactly one
Ace with hard remainder at least 11: the total is remainder + 1 and
usable_ace is false. -/
theorem claim_C2_hand_eval (cards : List Card)
    (hne : cards ≠ [])
    (hmem : ∀ c ∈ cards, c ∈ Deck.cards) :
    (numAces cards = 0 →
      get_hand_sum cards = (cards.map Card.value).sum ∧ usable_ace cards = false) ∧
    (numAces cards = 1 → nonAceSum cards ≤ 10 →
      get_hand_sum cards = nonAceSum cards + 11 ∧ usable_ace cards = true) ∧
    (numAces cards = 1 → 11 ≤ nonAceSum cards →
      get_hand_sum cards = nonAceSum cards + 1 ∧ usable_ace cards = false) := by
  have hval := valueSum_eq_hardBase cards hmem
  have hB : hardBase cards = nonAceSum cards + numAces cards := rfl
  have hiff := usable_ace_iff cards hmem
  refine ⟨?_, ?_, ?_⟩
  · intro h0
    have hno : ¬ (1 ≤ numAces cards ∧ hardBase cards ≤ 11) := by
      rintro ⟨h1, -⟩
      omega
    refine ⟨by rw [get_hand_sum_eq, if_neg hno, ← hval], ?_⟩
    cases hu : usable_ace cards
    · rfl
    · have := hiff.mp hu
      omega
  · intro h1 hr
    have hcond : 1 ≤ numAces cards ∧ hardBase cards ≤ 11 := ⟨by omega, by omega⟩
    refine ⟨by rw [get_hand_sum_eq, if_pos hcond, hB, h1], hiff.mpr hcond⟩
  · intro h1 hr
    have hno : ¬ (1 ≤ numAces cards ∧ hardBase cards ≤ 11) := by
      rintro ⟨-, h11⟩
      omega
    refine ⟨by rw [get_hand_sum_eq, if_neg hno, hB, h1], ?_⟩
    cases hu : usable_ace cards
    · rfl
    · have := hiff.mp hu
      omega

/-- Witness for C2: a no-Ace hand 10+9, a one-Ace soft hand A+5, and a
one-Ace hard hand A+J+5, each evaluated through the claim. -/
theorem claim_C2_hand_eval_witness :
    (get_hand_sum [⟨Face.n10, 10⟩, ⟨Face.n9, 9⟩]
        = ([⟨Face.n10, 10⟩, ⟨Face.n9, 9⟩].map Card.value).sum ∧
      usable_ace [⟨Face.n10, 10⟩, ⟨Face.n9, 9⟩] = false) ∧
    (get_hand_sum [⟨Face.A, 1⟩, ⟨Face.n5, 5⟩]
        = nonAceSum [⟨Face.A, 1⟩, ⟨Face.n5, 5⟩] + 11 ∧
      usable_ace [⟨Face.A, 1⟩, ⟨Face.n5, 5⟩] = true) ∧
    (get_hand_sum [⟨Face.A, 1⟩, ⟨Face.J, 10⟩, ⟨Face.n5, 5⟩]
        = nonAceSum [⟨Face.A, 1⟩, ⟨Face.J, 10⟩, ⟨Face.n5, 5⟩] + 1 ∧
      usable_ace [⟨Face.A, 1⟩, ⟨Face.J, 10⟩, ⟨Face.n5, 5⟩] = false) := by
  refine ⟨?_, ?_, ?_⟩
  · exact (claim_C2_hand_eval _ (by decide) (by decide)).1 (by decide)
  · exact (claim_C2_hand_eval _ (by decide) (by decide)).2.1 (by decide) (by decide)
  · exact (claim_C2_hand_eval _ (by decide) (by decide)).2.2 (by decide) (by decide)

/-- Claim C3: on every hand of table cards the engine predicate `usable_ace`
(an Ace is held and the raw sum is below 12) agrees with the
promotion-based reading: the evaluated total differs from the
all-Aces-as-1 hard sum. -/
theorem claim_C3_usable_ace_agrees (cards : List Card)
    (hmem : ∀ c ∈ cards, c ∈ Deck.cards) :
    usable_ace cards = true ↔
      get_hand_sum cards ≠ (cards.map Card.value).sum := by
  rw [usable_ace_iff cards hmem, valueSum_eq_hardBase cards hmem, get_hand_sum_eq]
  constructor
  · rintro ⟨h1, h11⟩
    rw [if_pos ⟨h1, h11⟩]
    omega
  · intro hne
    by_contra hc
    rw [if_neg hc] at hne
    exact hne rfl

/-- Witness for C3 at the soft hand A+5 (total 16, hard sum 6). -/
theorem claim_C3_usable_ace_agrees_witness :
    usable_ace [⟨Face.A, 1⟩, ⟨Face.n5, 5⟩] = true ↔
      get_hand_sum [⟨Face.A, 1⟩, ⟨Face.n5, 5⟩]
        ≠ ([⟨Face.A, 1⟩, ⟨Face.n5, 5⟩].map Card.value).sum :=
  claim_C3_usable_ace_agrees _ (by decide)

/-- Claim C9: `all_states` is exactly the product space
player_sum ∈ [2,30] × usable_ace × dealer_showing ∈ [1,10] × terminal,
of cardinality 29 × 2 × 10 × 2 = 1160. -/
theorem claim_C9_all_states :
    BlackjackState.all_states.card = 1160 ∧
    ∀ s : BlackjackState, s ∈ BlackjackState.all_states ↔
      (2 ≤ s.player_sum ∧ s.player_sum ≤ 30 ∧
        1 ≤ s.dealer_showing ∧ s.dealer_showing ≤ 10) := by
  have hinj : Function.Injective
      (fun t : Nat × Bool × Nat × Bool => BlackjackState.mk t.1 t.2.1 t.2.2.1 t.2.2.2) := by
    rintro ⟨a1, b1, c1, d1⟩ ⟨a2, b2, c2, d2⟩ h
    simp only [BlackjackState.mk.injEq] at h
    obtain ⟨rfl, rfl, rfl, rfl⟩ := h
    rfl
  constructor
  · rw [BlackjackState.all_states, Finset.card_image_of_injective _ hinj]
    simp [Nat.card_Icc]
  · intro s
    rw [BlackjackState.all_states]
    simp only [Finset.mem_image, Finset.mem_product, Finset.mem_Icc, Finset.mem_univ,
      true_and, and_true]
    constructor
    · rintro ⟨⟨a, b, c, d⟩, hmem2, rfl⟩
      exact ⟨hmem2.1.1, hmem2.1.2, hmem2.2.1, hmem2.2.2⟩
    · rintro ⟨h1, h2, h3, h4⟩
      exact ⟨⟨s.player_sum, s.usable_ace, s.dealer_showing, s.terminal⟩,
        ⟨⟨h1, h2⟩, ⟨h3, h4⟩⟩, rfl⟩

/-- Claim C7: `reset` deals two cards to the player then two to the
dealer from the stream, and returns reward +1 with a terminal state
exactly when the initial two-card player total is 21; otherwise it
returns reward 0 with a live, non-terminal state. -/
theorem claim_C7_reset (b : Blackjack) :
    (b.reset).1.player_cards = [drawCard b.deck b.idx, drawCard b.deck (b.idx + 1)] ∧
    (b.reset).1.dealer_cards = [drawCard b.deck (b.idx + 2), drawCard b.deck (b.idx + 3)] ∧
    (if get_hand_sum (b.reset).1.player_cards = 21
      then (b.reset).2.2 = 1 ∧ (b.reset).1.in_play = false ∧ (b.reset).2.1.terminal = true
      else (b.reset).2.2 = 0 ∧ (b.reset).1.in_play = true ∧ (b.reset).2.1.terminal = false) := by
  obtain ⟨hp, hd, -, -, hs, hnat⟩ := reset_spec b
  refine ⟨hp, hd, ?_⟩
  split_ifs with h21
  · rw [if_pos h21] at hnat
    refine ⟨hnat.2, hnat.1, ?_⟩
    rw [hs]
    simp [Blackjack.state, hnat.1]
  · rw [if_neg h21] at hnat
    refine ⟨hnat.2, hnat.1, ?_⟩
    rw [hs]
    simp [Blackjack.state, hnat.1]

/-- Claim C8: `play_action` fails with the single InvalidOperation error
exactly when the engine is no longer in play; on a live engine every
action is accepted. -/
theorem claim_C8_invalid_operation (b : Blackjack) (a : BlackjackAction) :
    (b.play_action a = Except.error InvalidOperation.gameOver ↔ b.in_play = false) ∧
    ((∃ out, b.play_action a = Except.ok out) ↔ b.in_play = true) := by
  cases hin : b.in_play
  · refine ⟨⟨fun _ => rfl, fun _ => play_action_error b a hin⟩, ?_⟩
    constructor
    · rintro ⟨out, hout⟩
      rw [play_action_error b a hin] at hout
      exact Except.noConfusion hout
    · intro h
      exact absurd h (by simp)
  · constructor
    · constructor
      · intro herr
        obtain ⟨out, hout⟩ := play_action_ok b a hin
        rw [hout] at herr
        exact Except.noConfusion herr
      · intro h
        exact absurd h (by simp)
    · exact ⟨fun _ => rfl, fun _ => play_action_ok b a hin⟩

/-- Claim C6: on a live engine HIT draws exactly one card for the player;
a new total over 21 ends the hand with reward −1, any total of at most 21
(21 included) keeps the hand live with reward 0, and the returned state
carries the new total. -/
theorem claim_C6_hit (b : Blackjack) (hin : b.in_play = true) :
    ∃ b1 s r, b.play_action BlackjackAction.HIT = Except.ok (b1, s, r) ∧
      b1.player_cards = b.player_cards ++ [drawCard b.deck b.idx] ∧
      b1.dealer_cards = b.dealer_cards ∧
      s.player_sum = get_hand_sum b1.player_cards ∧
      (if 21 < get_hand_sum (b.player_cards ++ [drawCard b.deck b.idx])
        then b1.in_play = false ∧ r = -1
        else b1.in_play = true ∧ r = 0) := by
  rw [play_action_hit_eq b hin]
  simp only []
  by_cases hbust : 21 < get_hand_sum (b.player_cards ++ [drawCard b.deck b.idx])
  · rw [if_pos hbust]
    refine ⟨_, _, _, rfl, rfl, rfl, rfl, ?_⟩
    rw [if_pos hbust]
    exact ⟨rfl, rfl⟩
  · rw [if_neg hbust]
    refine ⟨_, _, _, rfl, rfl, rfl, rfl, ?_⟩
    rw [if_neg hbust]
    exact ⟨hin, rfl⟩

/-- Witness for C6 at the freshly built engine on `deckStick` (player
10+10, the drawn card a 7: a bust). -/
theorem claim_C6_hit_witness :
    (Blackjack.initial deckStick).in_play = true ∧
    ∃ b1 s r,
      (Blackjack.initial deckStick).play_action BlackjackAction.HIT
        = Except.ok (b1, s, r) ∧
      b1.player_cards = (Blackjack.initial deckStick).player_cards
        ++ [drawCard (Blackjack.initial deckStick).deck (Blackjack.initial deckStick).idx] ∧
      b1.dealer_cards = (Blackjack.initial deckStick).dealer_cards ∧
      s.player_sum = get_hand_sum b1.player_cards ∧
      (if 21 < get_hand_sum ((Blackjack.initial deckStick).player_cards
            ++ [drawCard (Blackjack.initial deckStick).deck (Blackjack.initial deckStick).idx])
        then b1.in_play = false ∧ r = -1
        else b1.in_play = true ∧ r = 0) :=
  ⟨rfl, claim_C6_hit (Blackjack.initial deckStick) rfl⟩

/-- Claim C5: on a live engine STICK makes the dealer draw from the
stream one card at a time exactly while its total is below 17, then ends
the hand and settles: +1 on a dealer total over 21 regardless of the
player, else −1 / +1 / 0 as the dealer total is above / below / equal
to the player total. -/
theorem claim_C5_stick (b : Blackjack) (hin : b.in_play = true) :
    ∃ (b2 : Blackjack) (s : BlackjackState) (r : Int) (drawn : List Card),
      b.play_action BlackjackAction.STICK = Except.ok (b2, s, r) ∧
      b2.dealer_cards = b.dealer_cards ++ drawn ∧
      b2.player_cards = b.player_cards ∧
      b2.in_play = false ∧
      (∀ k (hk : k < drawn.length), drawn.get ⟨k, hk⟩ = drawCard b.deck (b.idx + k)) ∧
      (∀ k, k < drawn.length → get_hand_sum (b.dealer_cards ++ drawn.take k) < 17) ∧
      17 ≤ get_hand_sum (b.dealer_cards ++ drawn) ∧
      r = (if 21 < get_hand_sum (b.dealer_cards ++ drawn) then 1
            else if get_hand_sum b.player_cards < get_hand_sum (b.dealer_cards ++ drawn) then -1
            else if get_hand_sum (b.dealer_cards ++ drawn) < get_hand_sum b.player_cards then 1
            else 0) := by
  rw [play_action_stick_eq b hin]
  simp only []
  obtain ⟨drawn, h1, h2, h3, h4, h5⟩ := dealerDraw_spec b.deck b.idx b.dealer_cards
  split_ifs with hd1 hd2 hd3
  · rw [h1] at hd1
    exact ⟨_, _, _, drawn, rfl, h1, rfl, rfl, h3, h4, h5, by rw [if_pos hd1]⟩
  · rw [h1] at hd1 hd2
    exact ⟨_, _, _, drawn, rfl, h1, rfl, rfl, h3, h4, h5,
      by rw [if_neg hd1, if_pos hd2]⟩
  · rw [h1] at hd1 hd2 hd3
    exact ⟨_, _, _, drawn, rfl, h1, rfl, rfl, h3, h4, h5,
      by rw [if_neg hd1, if_neg hd2, if_pos hd3]⟩
  · rw [h1] at hd1 hd2 hd3
    exact ⟨_, _, _, drawn, rfl, h1, rfl, rfl, h3, h4, h5,
      by rw [if_neg hd1, if_neg hd2, if_neg hd3]⟩

/-- Witness for C5 at the freshly built engine on `deckStick` (player
10+10, dealer 6+5 drawing a 7 to 18, so the reward is +1). -/
theorem claim_C5_stick_witness :
    (Blackjack.initial deckStick).in_play = true ∧
    ∃ (b2 : Blackjack) (s : BlackjackState) (r : Int) (drawn : List Card),
      (Blackjack.initial deckStick).play_action BlackjackAction.STICK
        = Except.ok (b2, s, r) ∧
      b2.dealer_cards = (Blackjack.initial deckStick).dealer_cards ++ drawn ∧
      b2.player_cards = (Blackjack.initial deckStick).player_cards ∧
      b2.in_play = false ∧
      (∀ k (hk : k < drawn.length),
        drawn.get ⟨k, hk⟩ = drawCard (Blackjack.initial deckStick).deck
          ((Blackjack.initial deckStick).idx + k)) ∧
      (∀ k, k < drawn.length →
        get_hand_sum ((Blackjack.initial deckStick).dealer_cards ++ drawn.take k) < 17) ∧
      17 ≤ get_hand_sum ((Blackjack.initial deckStick).dealer_cards ++ drawn) ∧
      r = (if 21 < get_hand_sum ((Blackjack.initial deckStick).dealer_cards ++ drawn) then 1
            else if get_hand_sum (Blackjack.initial deckStick).player_cards
                < get_hand_sum ((Blackjack.initial deckStick).dealer_cards ++ drawn) then -1
            else if get_hand_sum ((Blackjack.initial deckStick).dealer_cards ++ drawn)
                < get_hand_sum (Blackjack.initial deckStick).player_cards then 1
            else 0) :=
  ⟨rfl, claim_C5_stick (Blackjack.initial deckStick) rfl⟩

/-- Claim C10: from any reachable live engine, STICK leaves the dealer
evaluated total in [17, 26]. -/
theorem claim_C10_stick_dealer_range (b : Blackjack) (hr : Reachable b)
    (hin : b.in_play = true) :
    ∃ b2 s r, b.play_action BlackjackAction.STICK = Except.ok (b2, s, r) ∧
      17 ≤ get_hand_sum b2.dealer_cards ∧ get_hand_sum b2.dealer_cards ≤ 26 := by
  obtain ⟨-, -, -, hdm, hlive, -⟩ := reachable_inv b hr
  obtain ⟨-, hd2⟩ := hlive hin
  have h21 : get_hand_sum b.dealer_cards ≤ 21 := get_hand_sum_two_cards_le _ hd2 hdm
  have h26 := dealerDraw_le_26 b.deck b.idx b.dealer_cards (by omega)
  obtain ⟨drawn, h1, -, -, -, h5⟩ := dealerDraw_spec b.deck b.idx b.dealer_cards
  rw [← h1] at h5
  rw [play_action_stick_eq b hin]
  simp only []
  split_ifs <;> exact ⟨_, _, _, rfl, h5, h26⟩

/-- Witness for C10 at the freshly built engine on `deckStick` (the
dealer finishes on 18). -/
theorem claim_C10_stick_dealer_range_witness :
    (Blackjack.initial deckStick).in_play = true ∧
    ∃ b2 s r,
      (Blackjack.initial deckStick).play_action BlackjackAction.STICK
        = Except.ok (b2, s, r) ∧
      17 ≤ get_hand_sum b2.dealer_cards ∧ get_hand_sum b2.dealer_cards ≤ 26 :=
  ⟨rfl, claim_C10_stick_dealer_range (Blackjack.initial deckStick)
    (Reachable.init deckStick) rfl⟩

/-- Counterexample to C4 as stated: on a deck whose first two draws are
the Ace and King dealt to the player, reset does NOT produce usable_ace = false —
the engine reports the Ace of the 21-total hand as usable. -/
theorem claim_C4_counterexample :
    drawCard deckNatural 0 = ⟨Face.A, 1⟩ ∧
    drawCard deckNatural 1 = ⟨Face.K, 10⟩ ∧
    ¬ (((Blackjack.mk deckNatural 0 Turn.player [] [] true).reset).2.1.usable_ace = false) := by
  refine ⟨rfl, rfl, ?_⟩
  decide

/-- Claim C4 amended: for a deck seeded so the initial two player cards
are Ace and King (in either order), reset returns reward +1 and a state
with player_sum = 21, terminal = true — and usable_ace = true (not false
as the claim stated). -/
theorem claim_C4_amended (b : Blackjack)
    (h0 : drawCard b.deck b.idx = ⟨Face.A, 1⟩ ∧ drawCard b.deck (b.idx + 1) = ⟨Face.K, 10⟩ ∨
          drawCard b.deck b.idx = ⟨Face.K, 10⟩ ∧ drawCard b.deck (b.idx + 1) = ⟨Face.A, 1⟩) :
    (b.reset).2.2 = 1 ∧ (b.reset).2.1.player_sum = 21 ∧
    (b.reset).2.1.usable_ace = true ∧ (b.reset).2.1.terminal = true := by
  obtain ⟨hp, -, -, -, hs, hnat⟩ := reset_spec b
  have h21 : get_hand_sum (b.reset).1.player_cards = 21 := by
    rcases h0 with ⟨h1, h2⟩ | ⟨h1, h2⟩ <;> rw [hp, h1, h2] <;> decide
  have hua : usable_ace (b.reset).1.player_cards = true := by
    rcases h0 with ⟨h1, h2⟩ | ⟨h1, h2⟩ <;> rw [hp, h1, h2] <;> decide
  rw [if_pos h21] at hnat
  refine ⟨hnat.2, ?_, ?_, ?_⟩
  · rw [hs]
    exact h21
  · rw [hs]
    exact hua
  · rw [hs]
    simp [Blackjack.state, hnat.1]

/-- Witness for the amended C4 at the concrete deck `deckNatural`. -/
theorem claim_C4_amended_witness :
    ((Blackjack.mk deckNatural 0 Turn.player [] [] true).reset).2.2 = 1 ∧
    ((Blackjack.mk deckNatural 0 Turn.player [] [] true).reset).2.1.player_sum = 21 ∧
    ((Blackjack.mk deckNatural 0 Turn.player [] [] true).reset).2.1.usable_ace = true ∧
    ((Blackjack.mk deckNatural 0 Turn.player [] [] true).reset).2.1.terminal = true :=
  claim_C4_amended (Blackjack.mk deckNatural 0 Turn.player [] [] true)
    (Or.inl ⟨rfl, rfl⟩)

/-- Counterexample to C1 as stated: player_sum 31 is reachable — deal
10+9, HIT to exactly 21 (hand still live), HIT again drawing a King. -/
theorem claim_C1_counterexample :
    ¬ ∀ b : Blackjack, Reachable b →
        2 ≤ b.state.player_sum ∧ b.state.player_sum ≤ 30 ∧
        1 ≤ b.state.dealer_showing ∧ b.state.dealer_showing ≤ 10 ∧
        (b.state.terminal = true ↔ b.in_play = false) := by
  intro hall
  have h1 : (Blackjack.initial deckTo31).play_action BlackjackAction.HIT
      = Except.ok (b31a, b31a.state, 0) := rfl
  have h2 : b31a.play_action BlackjackAction.HIT
      = Except.ok (b31b, b31b.state, -1) := rfl
  have hr : Reachable b31b :=
    Reachable.play_step b31a BlackjackAction.HIT (b31b, b31b.state, -1)
      (Reachable.play_step (Blackjack.initial deckTo31) BlackjackAction.HIT
        (b31a, b31a.state, 0) (Reachable.init deckTo31) h1) h2
  have h30 := (hall b31b hr).2.1
  have h31 : b31b.state.player_sum = 31 := rfl
  omega

/-- Claim C1 amended: for every reachable engine, the exposed state has
player_sum ∈ [2, 31] (31, not 30, is the tight upper bound: a HIT at 21
can draw a ten), dealer_showing ∈ [1, 10], and terminal holds exactly
when the engine in_play flag is false. -/
theorem claim_C1_amended (b : Blackjack) (hr : Reachable b) :
    2 ≤ b.state.player_sum ∧ b.state.player_sum ≤ 31 ∧
    1 ≤ b.state.dealer_showing ∧ b.state.dealer_showing ≤ 10 ∧
    (b.state.terminal = true ↔ b.in_play = false) := by
  obtain ⟨hpl, hdl, hpm, hdm, -, h31⟩ := reachable_inv b hr
  have hlb := length_le_hardBase b.player_cards hpm
  have hbe := hardBase_le_get_hand_sum b.player_cards
  have hlt : 1 < b.dealer_cards.length := by omega
  have hshow : b.dealer_cards.getD 1 ⟨Face.A, 1⟩ ∈ Deck.cards := by
    rw [List.getD_eq_get _ _ hlt]
    exact hdm _ (List.get_mem _ _ _)
  have hv := deck_card_facts _ hshow
  refine ⟨?_, h31, hv.1, hv.2.1, ?_⟩
  · show 2 ≤ get_hand_sum b.player_cards
    omega
  · show (!b.in_play) = true ↔ b.in_play = false
    simp

/-- Witness for the amended C1 at the freshly built engine on `deckStick`. -/
theorem claim_C1_amended_witness :
    2 ≤ (Blackjack.initial deckStick).state.player_sum ∧
    (Blackjack.initial deckStick).state.player_sum ≤ 31 ∧
    1 ≤ (Blackjack.initial deckStick).state.dealer_showing ∧
    (Blackjack.initial deckStick).state.dealer_showing ≤ 10 ∧
    ((Blackjack.initial deckStick).state.terminal = true ↔
      (Blackjack.initial deckStick).in_play = false) :=
  claim_C1_amended (Blackjack.initial deckStick) (Reachable.init deckStick)
